import Mathlib

/-!
Shallow embedding of the VR180 job orchestrator in
`src/server/index_optimized.js` (the `VR180Pipeline` class, the in-memory
`jobs` map, and the upload / status / download route handlers).

Progress values are JavaScript numbers used only through `+`, `*`, `/`,
`Math.min` on small inputs; they are modelled as rationals.  Stage and job
statuses are the literal strings used by the source (`"pending"`,
`"processing"`, `"completed"`, `"failed"`).  Timestamps (`new Date()`) are
modelled as natural numbers passed in explicitly.
-/

namespace VR180

/-- One entry of the `stages` array: `{ name, progress, status }`. -/
structure Stage where
  name : String
  progress : ℚ
  status : String
deriving DecidableEq, Repr

/-- The five stage records created both by the `VR180Pipeline` constructor and
by the job literal in `app.post('/api/upload')`: `depth`, `stereo`,
`outpainting`, `blur`, `upscaling`, each at progress 0, status `pending`. -/
def initStages : List Stage :=
  [⟨"depth", 0, "pending"⟩,
   ⟨"stereo", 0, "pending"⟩,
   ⟨"outpainting", 0, "pending"⟩,
   ⟨"blur", 0, "pending"⟩,
   ⟨"upscaling", 0, "pending"⟩]

/-- Source `updateProgress(stageName, progress, status)`: finds the first stage whose
`name` matches and overwrites its `progress` and `status`; no-op when no stage
matches.  (The source writes the given values directly, with no clamping.) -/
def updateProgress : List Stage → String → ℚ → String → List Stage
  | [], _, _, _ => []
  | s :: rest, n, p, st =>
      if s.name = n then { s with progress := p, status := st } :: rest
      else s :: updateProgress rest n p st

/-- One call to `updateProgress` as recorded in a pipeline trace. -/
structure Event where
  stageName : String
  progress : ℚ
  status : String
deriving DecidableEq, Repr

/-- Apply one recorded `updateProgress` call to the stages array. -/
def applyEventStages (stages : List Stage) (e : Event) : List Stage :=
  updateProgress stages e.stageName e.progress e.status

/-- Apply a sequence of recorded `updateProgress` calls in order. -/
def runEvents (stages : List Stage) (es : List Event) : List Stage :=
  es.foldl applyEventStages stages

/-- The job record stored in the `jobs` map. -/
structure Job where
  id : String
  filename : String
  status : String
  stages : List Stage
  uploadTime : ℕ
  lastUpdated : ℕ
  completedAt : Option ℕ
  failedAt : Option ℕ
  error : Option String
deriving DecidableEq, Repr

/-- The job literal built in `app.post('/api/upload')` and inserted into the
`jobs` map: status `processing`, the five stages all `pending`/0. -/
def createJob (id filename : String) (t : ℕ) : Job :=
  { id := id
    filename := filename
    status := "processing"
    stages := initStages
    uploadTime := t
    lastUpdated := t
    completedAt := none
    failedAt := none
    error := none }

/-- The `.then` continuation of `pipeline.processVideo()`:
`job.status = 'completed'; job.completedAt = new Date()`. -/
def finalizeCompleted (j : Job) (t : ℕ) : Job :=
  { j with status := "completed", completedAt := some t }

/-- The `.catch` continuation of `pipeline.processVideo()`:
`job.status = 'failed'; job.error = error.message; job.failedAt = new Date()`. -/
def finalizeFailed (j : Job) (msg : String) (t : ℕ) : Job :=
  { j with status := "failed", error := some msg, failedAt := some t }

/-- Environment behaviour of the external collaborators of one pipeline run:
the ffmpeg progress percentages reported during frame extraction, whether
frame extraction itself errors (`some message`), how many `.png` frames end up
in the frames directory, and which per-frame depth-map creations succeed. -/
structure PipelineInput where
  extractPercents : List ℚ
  extractOutcome : Option String
  numFrames : ℕ
  frameOk : List Bool
deriving Repr

/-- Source `extractFrames()`: first `updateProgress('depth', 10, 'processing')`; each
ffmpeg progress event writes `10 + Math.min(percent, 90) * 0.3`; on end it
writes `('depth', 40)`; on error it rejects with the error and writes nothing
further.  Returns the recorded trace and the error, if any. -/
def extractFramesEvents (inp : PipelineInput) : List Event × Option String :=
  let progEvs := inp.extractPercents.map
    (fun p => (⟨"depth", 10 + min p 90 * (3 / 10), "processing"⟩ : Event))
  match inp.extractOutcome with
  | none => (⟨"depth", 10, "processing"⟩ :: (progEvs ++ [⟨"depth", 40, "processing"⟩]), none)
  | some e => (⟨"depth", 10, "processing"⟩ :: progEvs, some e)

/-- The per-frame loop of `generateDepthMaps()`: for each of the first
`total` frames, a successful `createOptimizedDepthMap` is followed by
`updateProgress('depth', 50 + ((i+1)/total)*50, 'processing')`; a failing one
is caught and logged and writes nothing (the loop continues). -/
def depthFrameEvents (total : ℕ) (ok : List Bool) : List Event :=
  (List.range total).filterMap
    (fun i =>
      if ok.getD i true then
        some ⟨"depth", 50 + (((i : ℚ) + 1) / (total : ℚ)) * 50, "processing"⟩
      else none)

/-- Source `generateDepthMaps()`: writes `('depth', 50, 'processing')`, counts the
`.png` frames capped at 5 (`Math.min(pngFiles.length, 5)`), throws
`'No frames extracted from video'` when that count is 0, otherwise runs the
per-frame loop and finishes with `('depth', 100, 'completed')`. -/
def generateDepthMapsEvents (n : ℕ) (ok : List Bool) : List Event × Option String :=
  let total := min n 5
  if total = 0 then
    ([⟨"depth", 50, "processing"⟩], some "No frames extracted from video")
  else
    (⟨"depth", 50, "processing"⟩ ::
      (depthFrameEvents total ok ++ [⟨"depth", 100, "completed"⟩]), none)

/-- Source `synthesizeStereo()`: `('stereo',0)`, five steps of `((i+1)/5)*100`, then
`('stereo',100,'completed')`.  The body never throws. -/
def stereoEvents : List Event :=
  ⟨"stereo", 0, "processing"⟩ ::
    ((List.range 5).map
      (fun i => (⟨"stereo", (((i : ℚ) + 1) / 5) * 100, "processing"⟩ : Event)) ++
     [⟨"stereo", 100, "completed"⟩])

/-- Source `expandPanorama()`: `('outpainting',0)`, five steps toward 60, five steps
toward 100, then `('outpainting',100,'completed')`.  Never throws. -/
def expandPanoramaEvents : List Event :=
  ⟨"outpainting", 0, "processing"⟩ ::
    ((List.range 5).map
      (fun i => (⟨"outpainting", (((i : ℚ) + 1) / 5) * 60, "processing"⟩ : Event)) ++
     (List.range 5).map
      (fun i => (⟨"outpainting", (((i : ℚ) + 1) / 5) * 100, "processing"⟩ : Event)) ++
     [⟨"outpainting", 100, "completed"⟩])

/-- Source `applyFoveatedBlur()`: `('blur',0)`, four steps of `((i+1)/4)*100`, then
`('blur',100,'completed')`.  Never throws. -/
def foveatedBlurEvents : List Event :=
  ⟨"blur", 0, "processing"⟩ ::
    ((List.range 4).map
      (fun i => (⟨"blur", (((i : ℚ) + 1) / 4) * 100, "processing"⟩ : Event)) ++
     [⟨"blur", 100, "completed"⟩])

/-- Source `upscaleAndEnhance()`: `('upscaling',0)`, five steps toward 70, five steps
toward 100, then `('upscaling',100,'completed')`.  Never throws. -/
def upscaleEvents : List Event :=
  ⟨"upscaling", 0, "processing"⟩ ::
    ((List.range 5).map
      (fun i => (⟨"upscaling", (((i : ℚ) + 1) / 5) * 70, "processing"⟩ : Event)) ++
     (List.range 5).map
      (fun i => (⟨"upscaling", (((i : ℚ) + 1) / 5) * 100, "processing"⟩ : Event)) ++
     [⟨"upscaling", 100, "completed"⟩])

/-- The four stage executors after depth-map generation, which run
unconditionally once `generateDepthMaps` succeeds. -/
def laterStageEvents : List Event :=
  stereoEvents ++ expandPanoramaEvents ++ foveatedBlurEvents ++ upscaleEvents

/-- Source `processVideo()`: runs the six executor methods in order, stopping at the
first rejection and re-throwing its error; returns the full trace of
`updateProgress` calls together with the error, if any. -/
def processVideoEvents (inp : PipelineInput) : List Event × Option String :=
  let r1 := extractFramesEvents inp
  match r1.2 with
  | some err => (r1.1, some err)
  | none =>
    let r2 := generateDepthMapsEvents inp.numFrames inp.frameOk
    match r2.2 with
    | some err => (r1.1 ++ r2.1, some err)
    | none => (r1.1 ++ r2.1 ++ laterStageEvents, none)

/-- The job record as observable after the first `n` `updateProgress` calls of
the pipeline (before either finalize continuation has run). -/
def jobAfter (id filename : String) (inp : PipelineInput) (n : ℕ) : Job :=
  { createJob id filename 0 with
      stages := runEvents initStages ((processVideoEvents inp).1.take n)
      lastUpdated := 1 }

/-- The job record after the whole run: all `updateProgress` calls applied,
then the `.then` or `.catch` continuation according to the outcome. -/
def runJob (id filename : String) (inp : PipelineInput) : Job :=
  let r := processVideoEvents inp
  let j1 := { createJob id filename 0 with
                stages := runEvents initStages r.1
                lastUpdated := 1 }
  match r.2 with
  | none => finalizeCompleted j1 2
  | some msg => finalizeFailed j1 msg 2

/-- Scan the reversed character list for the dot of a trailing
`\.[^/.]+$` match, having already consumed at least one extension
character; a `/` or the start of the string means no match. -/
def stripExtScan : List Char → Option (List Char)
  | [] => none
  | c :: rest =>
      if c = '.' then some rest
      else if c = '/' then none
      else stripExtScan rest

/-- Match `\.[^/.]+$` against the reversed character list: the last character
must be neither `.` nor `/`, and a `.` must appear before any `/`.  Returns
the reversed characters before the matched suffix. -/
def stripExtAux : List Char → Option (List Char)
  | [] => none
  | c :: rest =>
      if c = '.' ∨ c = '/' then none
      else stripExtScan rest

/-- Source `filename.replace(/\.[^/.]+$/, "")`: removes a final dot-extension (a dot
followed by one or more characters none of which is a dot or slash) when
present, and otherwise leaves the string unchanged. -/
def stripDotExt (s : String) : String :=
  match stripExtAux s.data.reverse with
  | some r => String.mk r.reverse
  | none => s

/-- Outcome of `app.get('/api/download/:jobId')`. -/
inductive DownloadResult
  | notFoundJob
  | notCompleted
  | notFoundFile
  | file (path : String) (downloadName : String)
deriving DecidableEq, Repr

/-- Source `app.get('/api/download/:jobId')`: 404 `Job not found` on an unknown id;
400 `Job not completed yet` unless `job.status === 'completed'`;
then checks `outputs/<jobId>/final_vr180.mp4` and either 404
`Output file not found` or sends it under the name
`filename.replace(/\.[^/.]+$/, "") + "_VR180.mp4"`. -/
def downloadHandler (stored : Option Job) (fileExists : Bool) (jobId : String) :
    DownloadResult :=
  match stored with
  | none => .notFoundJob
  | some job =>
      if job.status = "completed" then
        if fileExists then
          .file ("outputs/" ++ jobId ++ "/final_vr180.mp4")
            (stripDotExt job.filename ++ "_VR180.mp4")
        else .notFoundFile
      else .notCompleted

/-- Source `app.get('/api/status/:jobId')`: 404 `Job not found` on an unknown id;
otherwise echoes the stored job record's fields. -/
def statusHandler (stored : Option Job) : Except String Job :=
  match stored with
  | none => .error "Job not found"
  | some job => .ok job

/-- Status of the stage at index `k`, defaulting to `pending` out of range. -/
def statusAt (stages : List Stage) (k : ℕ) : String :=
  ((stages.get? k).map Stage.status).getD "pending"

/-- Stage ordering check: for each adjacent pair, if stage `k+1` has left
`pending` then stage `k` has reached `completed`. -/
def orderOKB (stages : List Stage) : Bool :=
  (List.range 4).all
    (fun k => statusAt stages (k + 1) == "pending" || statusAt stages k == "completed")

/-- No write after completion: whenever a trace event marks a stage
`completed`, no later event in the trace addresses that stage. -/
def completedIsLastB : List Event → Bool
  | [] => true
  | e :: rest =>
      (e.status != "completed" || rest.all (fun e2 => e2.stageName != e.stageName)) &&
      completedIsLastB rest

/-- One job-status transition allowed by the claimed lifecycle: stay put, or
move from `processing` to a terminal status. -/
def stepOK (a b : String) : Bool :=
  a == b || (a == "processing" && (b == "completed" || b == "failed"))

/-- All adjacent transitions of a status history are allowed. -/
def monotonicStatuses : List String → Bool
  | [] => true
  | [_] => true
  | a :: b :: rest => stepOK a b && monotonicStatuses (b :: rest)

/-- The job statuses observable over one run: after each trace prefix, and
after the finalize continuation. -/
def statusHistory (id filename : String) (inp : PipelineInput) : List String :=
  ((List.range ((processVideoEvents inp).1.length + 1)).map
    (fun n => (jobAfter id filename inp n).status)) ++
  [(runJob id filename inp).status]

/-- The first trace event addressed to stage `s`. -/
def firstEventFor (es : List Event) (s : String) : Option Event :=
  (es.filter (fun e => e.stageName = s)).head?

/-- The stage record left by a sequence of writes all addressed to one stage:
the name is kept, progress and status are the last write's values. -/
def lastWrite (d : Stage) (es : List Event) : Stage :=
  es.foldl (fun s e => ⟨s.name, e.progress, e.status⟩) d

theorem runEvents_append (st : List Stage) (xs ys : List Event) :
    runEvents st (xs ++ ys) = runEvents (runEvents st xs) ys :=
  List.foldl_append _ _ _ _

theorem lastWrite_name (d : Stage) (es : List Event) : (lastWrite d es).name = d.name := by
  induction es generalizing d with
  | nil => rfl
  | cons e rest ih => exact ih ⟨d.name, e.progress, e.status⟩

theorem lastWrite_status (d : Stage) (es : List Event)
    (h : ∀ e ∈ es, e.status = "processing") :
    (lastWrite d es).status = "processing" ∨ lastWrite d es = d := by
  induction es generalizing d with
  | nil => exact Or.inr rfl
  | cons e rest ih =>
      rcases ih ⟨d.name, e.progress, e.status⟩ (fun e2 h2 => h e2 (List.mem_cons_of_mem _ h2)) with
        h1 | h1
      · exact Or.inl h1
      · left
        rw [lastWrite, List.foldl_cons]
        rw [lastWrite] at h1
        rw [h1]
        exact h e (List.mem_cons_self _ _)

/-- Writes all addressed to the head stage update only the head. -/
theorem runEvents_all_name (es : List Event) (d : Stage) (tl : List Stage)
    (h : ∀ e ∈ es, e.stageName = d.name) :
    runEvents (d :: tl) es = lastWrite d es :: tl := by
  induction es generalizing d with
  | nil => rfl
  | cons e rest ih =>
      have he : e.stageName = d.name := h e (List.mem_cons_self _ _)
      have step : applyEventStages (d :: tl) e = (⟨d.name, e.progress, e.status⟩ : Stage) :: tl := by
        simp [applyEventStages, updateProgress, he.symm]
      calc runEvents (d :: tl) (e :: rest)
          = runEvents (applyEventStages (d :: tl) e) rest := rfl
        _ = runEvents ((⟨d.name, e.progress, e.status⟩ : Stage) :: tl) rest := by rw [step]
        _ = lastWrite (⟨d.name, e.progress, e.status⟩ : Stage) rest :: tl :=
            ih ⟨d.name, e.progress, e.status⟩ (fun e2 h2 => h e2 (List.mem_cons_of_mem _ h2))
        _ = lastWrite d (e :: rest) :: tl := rfl

/-- Writes never addressed to the head stage leave the head unchanged. -/
theorem runEvents_ne_name (es : List Event) (d : Stage) (tl : List Stage)
    (h : ∀ e ∈ es, e.stageName ≠ d.name) :
    runEvents (d :: tl) es = d :: runEvents tl es := by
  induction es generalizing tl with
  | nil => rfl
  | cons e rest ih =>
      have he : e.stageName ≠ d.name := h e (List.mem_cons_self _ _)
      have hne : ¬ (d.name = e.stageName) := fun hh => he hh.symm
      have step : applyEventStages (d :: tl) e = d :: applyEventStages tl e := by
        simp [applyEventStages, updateProgress, hne]
      calc runEvents (d :: tl) (e :: rest)
          = runEvents (applyEventStages (d :: tl) e) rest := rfl
        _ = runEvents (d :: applyEventStages tl e) rest := by rw [step]
        _ = d :: runEvents (applyEventStages tl e) rest :=
            ih (applyEventStages tl e) (fun e2 h2 => h e2 (List.mem_cons_of_mem _ h2))
        _ = d :: runEvents tl (e :: rest) := rfl

theorem extractEvents_name_status (inp : PipelineInput) :
    ∀ e ∈ (extractFramesEvents inp).1, e.stageName = "depth" ∧ e.status = "processing" := by
  intro e he
  unfold extractFramesEvents at he
  cases h : inp.extractOutcome with
  | none =>
      rw [h] at he
      simp only [List.mem_cons, List.mem_append, List.mem_map, List.mem_singleton,
        List.not_mem_nil, or_false] at he
      rcases he with he | ⟨p, _, he⟩ | he <;> subst he <;> exact ⟨rfl, rfl⟩
  | some msg =>
      rw [h] at he
      simp only [List.mem_cons, List.mem_map] at he
      rcases he with he | ⟨p, _, he⟩ <;> subst he <;> exact ⟨rfl, rfl⟩

theorem depthFrameEvents_name_status (t : ℕ) (ok : List Bool) :
    ∀ e ∈ depthFrameEvents t ok, e.stageName = "depth" ∧ e.status = "processing" := by
  intro e he
  unfold depthFrameEvents at he
  rw [List.mem_filterMap] at he
  rcases he with ⟨i, _, hi⟩
  by_cases hok : ok.getD i true
  · rw [if_pos hok, Option.some_inj] at hi
    subst hi
    exact ⟨rfl, rfl⟩
  · rw [if_neg hok] at hi
    exact absurd hi (Option.noConfusion)

theorem depthFrameEvents_bounds (t : ℕ) (ok : List Bool) (ht : t ≠ 0) :
    ∀ e ∈ depthFrameEvents t ok, 50 ≤ e.progress ∧ e.progress ≤ 100 := by
  intro e he
  unfold depthFrameEvents at he
  rw [List.mem_filterMap] at he
  rcases he with ⟨i, hmem, hi⟩
  by_cases hok : ok.getD i true
  · rw [if_pos hok, Option.some_inj] at hi
    subst hi
    have hit : i < t := List.mem_range.mp hmem
    have ht0 : (0 : ℚ) < (t : ℚ) := by exact_mod_cast Nat.pos_of_ne_zero ht
    have hle : ((i : ℚ) + 1) / (t : ℚ) ≤ 1 := by
      rw [div_le_one ht0]
      exact_mod_cast Nat.succ_le_of_lt hit
    have hge : 0 ≤ ((i : ℚ) + 1) / (t : ℚ) := by positivity
    constructor
    · simp only
      nlinarith
    · simp only
      nlinarith
  · rw [if_neg hok] at hi
    exact absurd hi (Option.noConfusion)

theorem extractEvents_le (inp : PipelineInput) :
    ∀ e ∈ (extractFramesEvents inp).1, e.progress ≤ 100 := by
  intro e he
  unfold extractFramesEvents at he
  cases h : inp.extractOutcome with
  | none =>
      rw [h] at he
      simp only [List.mem_cons, List.mem_append, List.mem_map, List.mem_singleton,
        List.not_mem_nil, or_false] at he
      rcases he with he | ⟨p, _, he⟩ | he <;> subst he
      · norm_num
      · have : min p 90 ≤ 90 := min_le_right _ _
        simp only
        nlinarith
      · norm_num
  | some msg =>
      rw [h] at he
      simp only [List.mem_cons, List.mem_map] at he
      rcases he with he | ⟨p, _, he⟩ <;> subst he
      · norm_num
      · have : min p 90 ≤ 90 := min_le_right _ _
        simp only
        nlinarith

theorem extractEvents_nonneg (inp : PipelineInput)
    (hp : ∀ p ∈ inp.extractPercents, (0 : ℚ) ≤ p) :
    ∀ e ∈ (extractFramesEvents inp).1, 0 ≤ e.progress := by
  intro e he
  unfold extractFramesEvents at he
  cases h : inp.extractOutcome with
  | none =>
      rw [h] at he
      simp only [List.mem_cons, List.mem_append, List.mem_map, List.mem_singleton,
        List.not_mem_nil, or_false] at he
      rcases he with he | ⟨p, hpm, he⟩ | he <;> subst he
      · norm_num
      · have h0 : (0 : ℚ) ≤ min p 90 := le_min (hp p hpm) (by norm_num)
        simp only
        nlinarith
      · norm_num
  | some msg =>
      rw [h] at he
      simp only [List.mem_cons, List.mem_map] at he
      rcases he with he | ⟨p, hpm, he⟩ <;> subst he
      · norm_num
      · have h0 : (0 : ℚ) ≤ min p 90 := le_min (hp p hpm) (by norm_num)
        simp only
        nlinarith

theorem laterStage_facts :
    ∀ e ∈ laterStageEvents,
      e.stageName ≠ "depth" ∧ 0 ≤ e.progress ∧ e.progress ≤ 100 := by
  simp [laterStageEvents, stereoEvents, expandPanoramaEvents, foveatedBlurEvents,
    upscaleEvents, List.range_succ]
  norm_num

theorem completedIsLastB_append (xs ys : List Event)
    (h : ∀ e ∈ xs, e.status = "processing") :
    completedIsLastB (xs ++ ys) = completedIsLastB ys := by
  induction xs with
  | nil => rfl
  | cons e rest ih =>
      have he : e.status = "processing" := h e (List.mem_cons_self _ _)
      have hne : (e.status != "completed") = true := by rw [he]; rfl
      calc completedIsLastB (e :: rest ++ ys)
          = ((e.status != "completed" ||
              (rest ++ ys).all (fun e2 => e2.stageName != e.stageName)) &&
             completedIsLastB (rest ++ ys)) := rfl
        _ = completedIsLastB (rest ++ ys) := by rw [hne, Bool.true_or, Bool.true_and]
        _ = completedIsLastB ys := ih (fun e2 h2 => h e2 (List.mem_cons_of_mem _ h2))

theorem completedIsLast_later : completedIsLastB laterStageEvents = true := by decide

theorem laterStage_not_depth : ∀ e ∈ laterStageEvents, e.stageName ≠ "depth" := by decide

/-- Trace shape when frame extraction rejects. -/
theorem processVideoEvents_extract_fail (inp : PipelineInput) (msg : String)
    (h : inp.extractOutcome = some msg) :
    processVideoEvents inp = ((extractFramesEvents inp).1, some msg) := by
  have h1 : (extractFramesEvents inp).2 = some msg := by
    unfold extractFramesEvents
    rw [h]
  simp only [processVideoEvents, h1]

/-- Trace shape when extraction succeeds but no `.png` frame exists. -/
theorem processVideoEvents_no_frames (inp : PipelineInput)
    (h : inp.extractOutcome = none) (h0 : min inp.numFrames 5 = 0) :
    processVideoEvents inp =
      ((extractFramesEvents inp).1 ++ [⟨"depth", 50, "processing"⟩],
       some "No frames extracted from video") := by
  have h1 : (extractFramesEvents inp).2 = none := by
    unfold extractFramesEvents
    rw [h]
  have h2 : generateDepthMapsEvents inp.numFrames inp.frameOk =
      ([⟨"depth", 50, "processing"⟩], some "No frames extracted from video") := by
    unfold generateDepthMapsEvents
    rw [if_pos h0]
  simp only [processVideoEvents, h1, h2]

/-- Trace shape of a fully successful run. -/
theorem processVideoEvents_success (inp : PipelineInput)
    (h : inp.extractOutcome = none) (h0 : min inp.numFrames 5 ≠ 0) :
    processVideoEvents inp =
      ((extractFramesEvents inp).1 ++
        (⟨"depth", 50, "processing"⟩ ::
          (depthFrameEvents (min inp.numFrames 5) inp.frameOk ++
           [⟨"depth", 100, "completed"⟩])) ++ laterStageEvents,
       none) := by
  have h1 : (extractFramesEvents inp).2 = none := by
    unfold extractFramesEvents
    rw [h]
  have h2 : generateDepthMapsEvents inp.numFrames inp.frameOk =
      (⟨"depth", 50, "processing"⟩ ::
        (depthFrameEvents (min inp.numFrames 5) inp.frameOk ++
         [⟨"depth", 100, "completed"⟩]), none) := by
    unfold generateDepthMapsEvents
    rw [if_neg h0]
  simp only [processVideoEvents, h1, h2]

/-- The depth phase of a successful run: every event is addressed to `depth`,
every event except the final one has status `processing`. -/
def depthPhase (inp : PipelineInput) : List Event :=
  (extractFramesEvents inp).1 ++
    (⟨"depth", 50, "processing"⟩ ::
      (depthFrameEvents (min inp.numFrames 5) inp.frameOk ++
       [⟨"depth", 100, "completed"⟩]))

theorem depthPhase_names (inp : PipelineInput) :
    ∀ e ∈ depthPhase inp, e.stageName = "depth" := by
  intro e he
  unfold depthPhase at he
  rw [List.mem_append] at he
  rcases he with he | he
  · exact (extractEvents_name_status inp e he).1
  · rw [List.mem_cons] at he
    rcases he with he | he
    · rw [he]
    · rw [List.mem_append] at he
      rcases he with he | he
      · exact (depthFrameEvents_name_status _ _ e he).1
      · rw [List.mem_singleton] at he
        rw [he]

/-- Every event of the depth phase except the final `completed` write has
status `processing`. -/
theorem depthPhase_front_processing (inp : PipelineInput) :
    ∀ e ∈ (extractFramesEvents inp).1 ++
        (⟨"depth", 50, "processing"⟩ ::
          depthFrameEvents (min inp.numFrames 5) inp.frameOk),
      e.status = "processing" := by
  intro e he
  rw [List.mem_append] at he
  rcases he with he | he
  · exact (extractEvents_name_status inp e he).2
  · rw [List.mem_cons] at he
    rcases he with he | he
    · rw [he]
    · exact (depthFrameEvents_name_status _ _ e he).2

theorem orderOKB_cons_tail (d : Stage) : orderOKB (d :: initStages.tail) = true := rfl

/-- After the depth stage has completed, every prefix of the remaining
concrete stage writes keeps the stages in pipeline order. -/
theorem orderOKB_later_check :
    (List.range (laterStageEvents.length + 1)).all
      (fun m => orderOKB ((⟨"depth", 100, "completed"⟩ : Stage) ::
        runEvents initStages.tail (laterStageEvents.take m))) = true := by decide

theorem monotonicStatuses_processing_terminal (l : List String) (t : String)
    (hl : ∀ s ∈ l, s = "processing") (ht : t = "completed" ∨ t = "failed") :
    monotonicStatuses (l ++ [t]) = true := by
  induction l with
  | nil => rfl
  | cons a rest ih =>
      have ha : a = "processing" := hl a (List.mem_cons_self _ _)
      have hrest : ∀ s ∈ rest, s = "processing" :=
        fun s hs => hl s (List.mem_cons_of_mem _ hs)
      cases rest with
      | nil =>
          subst ha
          rcases ht with ht | ht <;> subst ht <;> rfl
      | cons b rest2 =>
          have hb : b = "processing" := hrest b (List.mem_cons_self _ _)
          have step : stepOK a b = true := by
            subst ha
            subst hb
            rfl
          calc monotonicStatuses ((a :: b :: rest2) ++ [t])
              = (stepOK a b && monotonicStatuses ((b :: rest2) ++ [t])) := rfl
            _ = monotonicStatuses ((b :: rest2) ++ [t]) := by rw [step, Bool.true_and]
            _ = true := ih hrest

theorem lastWrite_append (d : Stage) (xs ys : List Event) :
    lastWrite d (xs ++ ys) = lastWrite (lastWrite d xs) ys :=
  List.foldl_append _ _ _ _

theorem lastWrite_status_of_base (d : Stage) (es : List Event)
    (hd : d.status = "processing")
    (h : ∀ e ∈ es, e.status = "processing") :
    (lastWrite d es).status = "processing" := by
  rcases lastWrite_status d es h with h1 | h1
  · exact h1
  · rw [h1, hd]

theorem lastWrite_status_of_ne (d : Stage) (es : List Event) (hne : es ≠ [])
    (h : ∀ e ∈ es, e.status = "processing") :
    (lastWrite d es).status = "processing" := by
  cases es with
  | nil => exact absurd rfl hne
  | cons e rest =>
      have he : e.status = "processing" := h e (List.mem_cons_self _ _)
      show (lastWrite (⟨d.name, e.progress, e.status⟩ : Stage) rest).status = "processing"
      exact lastWrite_status_of_base _ _ he (fun e2 h2 => h e2 (List.mem_cons_of_mem _ h2))

theorem extractEvents_ne_nil (inp : PipelineInput) : (extractFramesEvents inp).1 ≠ [] := by
  unfold extractFramesEvents
  cases inp.extractOutcome <;> simp

/-- Running any non-empty sequence of depth-addressed `processing` writes from
the initial stage array leaves one overwritten depth record at the head and
the other four stages untouched at `pending`/0. -/
theorem runEvents_depth_processing (es : List Event)
    (hname : ∀ e ∈ es, e.stageName = "depth")
    (hproc : ∀ e ∈ es, e.status = "processing")
    (hne : es ≠ []) :
    ∃ p : ℚ, runEvents initStages es =
      (⟨"depth", p, "processing"⟩ : Stage) :: initStages.tail := by
  have h0 : initStages = (⟨"depth", 0, "pending"⟩ : Stage) :: initStages.tail := rfl
  rw [h0, runEvents_all_name es _ _ hname]
  refine ⟨(lastWrite ⟨"depth", 0, "pending"⟩ es).progress, ?_⟩
  have h1 : (lastWrite (⟨"depth", 0, "pending"⟩ : Stage) es).name = "depth" :=
    lastWrite_name _ es
  have h2 : (lastWrite (⟨"depth", 0, "pending"⟩ : Stage) es).status = "processing" :=
    lastWrite_status_of_ne _ es hne hproc
  cases hL : lastWrite (⟨"depth", 0, "pending"⟩ : Stage) es with
  | mk n pr st =>
      rw [hL] at h1 h2
      simp only at h1 h2
      simp [h1, h2]

theorem runJob_failed (id filename : String) (inp : PipelineInput) (msg : String)
    (h : (processVideoEvents inp).2 = some msg) :
    runJob id filename inp =
      { id := id, filename := filename, status := "failed",
        stages := runEvents initStages (processVideoEvents inp).1,
        uploadTime := 0, lastUpdated := 1,
        completedAt := none, failedAt := some 2, error := some msg } := by
  unfold runJob
  simp only [h, createJob, finalizeFailed]

theorem runJob_completed (id filename : String) (inp : PipelineInput)
    (h : (processVideoEvents inp).2 = none) :
    runJob id filename inp =
      { id := id, filename := filename, status := "completed",
        stages := runEvents initStages (processVideoEvents inp).1,
        uploadTime := 0, lastUpdated := 1,
        completedAt := some 2, failedAt := none, error := none } := by
  unfold runJob
  simp only [h, createJob, finalizeCompleted]

theorem depthPhase_split (inp : PipelineInput) :
    depthPhase inp =
      ((extractFramesEvents inp).1 ++
        (⟨"depth", 50, "processing"⟩ ::
          depthFrameEvents (min inp.numFrames 5) inp.frameOk)) ++
      [⟨"depth", 100, "completed"⟩] := by
  unfold depthPhase
  simp [List.cons_append, List.append_assoc]

/-- After the whole depth phase, the depth record is `completed`/100 and the
other stages are untouched. -/
theorem runEvents_depthPhase (inp : PipelineInput) :
    runEvents initStages (depthPhase inp) =
      (⟨"depth", 100, "completed"⟩ : Stage) :: initStages.tail := by
  have h0 : initStages = (⟨"depth", 0, "pending"⟩ : Stage) :: initStages.tail := rfl
  rw [h0, runEvents_all_name _ _ _ (depthPhase_names inp)]
  rw [depthPhase_split inp, lastWrite_append]
  have h1 : (lastWrite (⟨"depth", 0, "pending"⟩ : Stage)
      ((extractFramesEvents inp).1 ++
        (⟨"depth", 50, "processing"⟩ ::
          depthFrameEvents (min inp.numFrames 5) inp.frameOk))).name = "depth" :=
    lastWrite_name _ _
  show (⟨_, (100 : ℚ), "completed"⟩ : Stage) :: initStages.tail = _
  rw [h1]
  rfl

/-- The trace of a successful run, regrouped as depth phase then the four
later stages. -/
theorem processVideoEvents_success_phase (inp : PipelineInput)
    (h : inp.extractOutcome = none) (h0 : min inp.numFrames 5 ≠ 0) :
    (processVideoEvents inp).1 = depthPhase inp ++ laterStageEvents := by
  rw [processVideoEvents_success inp h h0]
  rfl

/-- Stage array after a whole successful run: depth completed, the later
concrete writes applied to the tail. -/
theorem runJob_success_stages (id filename : String) (inp : PipelineInput)
    (hx : inp.extractOutcome = none) (h0 : min inp.numFrames 5 ≠ 0) :
    (runJob id filename inp).stages =
      (⟨"depth", 100, "completed"⟩ : Stage) ::
        runEvents initStages.tail laterStageEvents := by
  have hnone : (processVideoEvents inp).2 = none := by
    rw [processVideoEvents_success inp hx h0]
  rw [runJob_completed id filename inp hnone]
  show runEvents initStages (processVideoEvents inp).1 = _
  rw [processVideoEvents_success_phase inp hx h0, runEvents_append,
    runEvents_depthPhase inp]
  exact runEvents_ne_name laterStageEvents _ _
    (fun e he hn => (laterStage_not_depth e he) hn)

theorem completedIsLastB_of_processing (es : List Event)
    (h : ∀ e ∈ es, e.status = "processing") :
    completedIsLastB es = true := by
  have h1 := completedIsLastB_append es [] h
  rw [List.append_nil] at h1
  rw [h1]
  rfl

theorem completedIsLast_done_later :
    completedIsLastB ((⟨"depth", 100, "completed"⟩ : Event) :: laterStageEvents) = true := by
  decide

/-- A run in which frame extraction succeeds but leaves zero `.png` frames, so
depth-map generation throws. -/
def inpNoFrames : PipelineInput := ⟨[], none, 0, []⟩

/-- A fully successful run: two progress reports, three frames, the middle
per-frame depth map fails. -/
def inpHappy : PipelineInput := ⟨[5, 30], none, 3, [true, false, true]⟩

/-- A run whose extraction executor reports a negative progress percentage. -/
def inpNegPercent : PipelineInput := ⟨[-200], none, 1, [true]⟩

/-- A run whose extraction executor reports a percentage above 100. -/
def inpClampHigh : PipelineInput := ⟨[150, 20], none, 2, [true, true]⟩

/-- A successful run in which two of three per-frame depth maps fail. -/
def inpMixedFrames : PipelineInput := ⟨[], none, 3, [false, true, false]⟩

/-- C2, counterexample: the job registered at submission has five stage
records, not six — the claimed "all six pipeline stages present" is false of
the record `GetStatus` echoes. -/
theorem C2_counterexample :
    statusHandler (some (createJob "job-1" "clip.mp4" 0)) =
      .ok (createJob "job-1" "clip.mp4" 0) ∧
    (createJob "job-1" "clip.mp4" 0).stages.length = 5 ∧
    ¬ ((createJob "job-1" "clip.mp4" 0).stages.length = 6) :=
  ⟨rfl, rfl, by decide⟩

/-- C2, amended: `GetStatus` immediately after `Submit` echoes the registered
job with status `processing` and five stage records (`depth`, `stereo`,
`outpainting`, `blur`, `upscaling`), each `pending` with progress 0. -/
theorem C2_amended (id filename : String) (t : ℕ) :
    statusHandler (some (createJob id filename t)) = .ok (createJob id filename t) ∧
    (createJob id filename t).status = "processing" ∧
    (createJob id filename t).stages = initStages ∧
    initStages.length = 5 ∧
    ∀ s ∈ initStages, s.status = "pending" ∧ s.progress = 0 := by
  refine ⟨rfl, rfl, rfl, rfl, ?_⟩
  intro s hs
  simp only [initStages, List.mem_cons, List.not_mem_nil, or_false] at hs
  rcases hs with h | h | h | h | h <;> subst h <;> exact ⟨rfl, rfl⟩

/-- C5: over a whole run the job-level status only moves from `processing` to
`completed` or from `processing` to `failed`; every observable history of the
status follows these transitions and ends in exactly one terminal status. -/
theorem C5_status_monotonic (id filename : String) (inp : PipelineInput) :
    monotonicStatuses (statusHistory id filename inp) = true ∧
    ((runJob id filename inp).status = "completed" ∨
     (runJob id filename inp).status = "failed") := by
  have hterm : (runJob id filename inp).status = "completed" ∨
      (runJob id filename inp).status = "failed" := by
    cases h : (processVideoEvents inp).2 with
    | none => exact Or.inl (by rw [runJob_completed id filename inp h])
    | some msg => exact Or.inr (by rw [runJob_failed id filename inp msg h])
  refine ⟨?_, hterm⟩
  unfold statusHistory
  apply monotonicStatuses_processing_terminal
  · intro s hs
    rw [List.mem_map] at hs
    rcases hs with ⟨n, _, hn⟩
    rw [← hn]
    rfl
  · exact hterm

/-- C6, counterexample: repeating the `completed` finalize continuation is not
a no-op — the second call overwrites `completedAt` with its own (later)
timestamp, so the job record changes. -/
theorem C6_counterexample :
    finalizeCompleted (finalizeCompleted (createJob "job-1" "clip.mp4" 0) 1) 2 ≠
      finalizeCompleted (createJob "job-1" "clip.mp4" 0) 1 := by
  intro h
  have h2 := congrArg Job.completedAt h
  simp [finalizeCompleted] at h2

/-- C6, amended: finalizing twice with the same terminal outcome leaves the
status, error message and stages unchanged and only overwrites the terminal
timestamp with the second call's time; the record is entirely unchanged
exactly when the two calls carry the same timestamp. -/
theorem C6_amended (j : Job) (t1 t2 : ℕ) (msg : String) :
    finalizeCompleted (finalizeCompleted j t1) t2 =
      { finalizeCompleted j t1 with completedAt := some t2 } ∧
    finalizeFailed (finalizeFailed j msg t1) msg t2 =
      { finalizeFailed j msg t1 with failedAt := some t2 } ∧
    finalizeCompleted (finalizeCompleted j t1) t1 = finalizeCompleted j t1 ∧
    finalizeFailed (finalizeFailed j msg t1) msg t1 = finalizeFailed j msg t1 ∧
    (finalizeCompleted (finalizeCompleted j t1) t2).status =
      (finalizeCompleted j t1).status ∧
    (finalizeCompleted (finalizeCompleted j t1) t2).stages =
      (finalizeCompleted j t1).stages ∧
    (finalizeCompleted (finalizeCompleted j t1) t2).error =
      (finalizeCompleted j t1).error :=
  ⟨rfl, rfl, rfl, rfl, rfl, rfl, rfl⟩

/-- C7: the download route 404s on an unknown id, 400s (`NotReady`) whenever
the stored job is not `completed`, 404s when the job is `completed` but the
output file is missing, and only ever serves a file for a `completed` job
whose output exists. -/
theorem C7_get_result_errors (job : Job) (fe : Bool) (jobId : String) :
    downloadHandler none fe jobId = .notFoundJob ∧
    (job.status ≠ "completed" → downloadHandler (some job) fe jobId = .notCompleted) ∧
    (job.status = "completed" → downloadHandler (some job) false jobId = .notFoundFile) ∧
    (∀ p nm, downloadHandler (some job) fe jobId = .file p nm →
      job.status = "completed" ∧ fe = true) := by
  refine ⟨rfl, ?_, ?_, ?_⟩
  · intro h
    simp [downloadHandler, h]
  · intro h
    simp [downloadHandler, h]
  · intro p nm h
    by_cases hs : job.status = "completed"
    · refine ⟨hs, ?_⟩
      cases fe with
      | false => simp [downloadHandler, hs] at h
      | true => rfl
    · simp [downloadHandler, hs] at h

/-- Witness for C7 at concrete inputs: a completed job with a missing output
file gets `Output file not found`, and a still-processing job gets
`Job not completed yet`. -/
theorem C7_witness :
    downloadHandler
      (some { createJob "job-1" "clip.mp4" 0 with status := "completed" })
      false "job-1" = .notFoundFile ∧
    downloadHandler (some (createJob "job-1" "clip.mp4" 0)) true "job-1" =
      .notCompleted :=
  ⟨(C7_get_result_errors
      { createJob "job-1" "clip.mp4" 0 with status := "completed" }
      false "job-1").2.2.1 rfl,
   (C7_get_result_errors (createJob "job-1" "clip.mp4" 0) true "job-1").2.1
     (by decide)⟩

/-- C1, counterexample: when depth-map generation fails after extraction
succeeded, the final record has job status `failed` with the executor's
message, but the failing stage is left at status `processing` (progress 50) —
no stage is ever marked `failed`, contrary to the claim. -/
theorem C1_counterexample :
    (processVideoEvents inpNoFrames).2 = some "No frames extracted from video" ∧
    (runJob "job-1" "clip.mp4" inpNoFrames).status = "failed" ∧
    (runJob "job-1" "clip.mp4" inpNoFrames).stages.map Stage.status =
      ["processing", "pending", "pending", "pending", "pending"] ∧
    (∀ s ∈ (runJob "job-1" "clip.mp4" inpNoFrames).stages, s.status ≠ "failed") :=
  ⟨by decide, by decide, by decide, by decide⟩

/-- C1, amended: when a stage executor fails, the Runner leaves the failing
stage in its last written state — status `processing` with its last progress
value, never `failed` — starts no subsequent stage (the other four stage
records stay `pending` at progress 0), and the job record ends with status
`failed` and `error` equal to the executor's error message. -/
theorem C1_amended (id filename : String) (inp : PipelineInput) (msg : String)
    (h : (processVideoEvents inp).2 = some msg) :
    (runJob id filename inp).status = "failed" ∧
    (runJob id filename inp).error = some msg ∧
    ∃ p : ℚ, (runJob id filename inp).stages =
      (⟨"depth", p, "processing"⟩ : Stage) :: initStages.tail := by
  rw [runJob_failed id filename inp msg h]
  refine ⟨rfl, rfl, ?_⟩
  show ∃ p : ℚ, runEvents initStages (processVideoEvents inp).1 = _
  cases hx : inp.extractOutcome with
  | some m =>
      rw [processVideoEvents_extract_fail inp m hx]
      exact runEvents_depth_processing _
        (fun e he => (extractEvents_name_status inp e he).1)
        (fun e he => (extractEvents_name_status inp e he).2)
        (extractEvents_ne_nil inp)
  | none =>
      by_cases h0 : min inp.numFrames 5 = 0
      · rw [processVideoEvents_no_frames inp hx h0]
        refine runEvents_depth_processing _ ?_ ?_ ?_
        · intro e he
          rw [List.mem_append] at he
          rcases he with he | he
          · exact (extractEvents_name_status inp e he).1
          · rw [List.mem_singleton] at he
            rw [he]
        · intro e he
          rw [List.mem_append] at he
          rcases he with he | he
          · exact (extractEvents_name_status inp e he).2
          · rw [List.mem_singleton] at he
            rw [he]
        · intro hnil
          exact extractEvents_ne_nil inp (List.append_eq_nil.mp hnil).1
      · rw [processVideoEvents_success inp hx h0] at h
        exact absurd h (by simp)

/-- Witness for C1 at the concrete no-frames input. -/
theorem C1_witness :
    (processVideoEvents inpNoFrames).2 = some "No frames extracted from video" ∧
    (runJob "job-2" "clip.mp4" inpNoFrames).status = "failed" ∧
    (runJob "job-2" "clip.mp4" inpNoFrames).error =
      some "No frames extracted from video" :=
  ⟨by decide,
   (C1_amended "job-2" "clip.mp4" inpNoFrames
     "No frames extracted from video" (by decide)).1,
   (C1_amended "job-2" "clip.mp4" inpNoFrames
     "No frames extracted from video" (by decide)).2.1⟩

/-- C9: a per-frame depth-map failure is caught and does not fail the stage or
the job — with extraction succeeding and at least one frame, every choice of
per-frame successes and failures still completes the depth stage at 100 and
the job at `completed`; the stage fails only in the zero-frames case, with
the `No frames extracted from video` error. -/
theorem C9_per_item_tolerance (id filename : String) (inp : PipelineInput)
    (hx : inp.extractOutcome = none) :
    (inp.numFrames ≠ 0 →
      (processVideoEvents inp).2 = none ∧
      (runJob id filename inp).status = "completed" ∧
      (runJob id filename inp).stages.head? =
        some ⟨"depth", 100, "completed"⟩) ∧
    (inp.numFrames = 0 →
      (processVideoEvents inp).2 = some "No frames extracted from video" ∧
      (runJob id filename inp).status = "failed") := by
  constructor
  · intro hn
    have h0 : min inp.numFrames 5 ≠ 0 := by
      intro hmin
      rcases Nat.min_eq_zero_iff.mp hmin with h | h
      · exact hn h
      · exact absurd h (by norm_num)
    have hnone : (processVideoEvents inp).2 = none := by
      rw [processVideoEvents_success inp hx h0]
    refine ⟨hnone, by rw [runJob_completed id filename inp hnone], ?_⟩
    rw [runJob_success_stages id filename inp hx h0]
    rfl
  · intro hn
    have h0 : min inp.numFrames 5 = 0 := by
      rw [Nat.min_eq_zero_iff]
      exact Or.inl hn
    have hsome : (processVideoEvents inp).2 = some "No frames extracted from video" := by
      rw [processVideoEvents_no_frames inp hx h0]
    exact ⟨hsome, by rw [runJob_failed id filename inp _ hsome]⟩

/-- Witness for C9: with three frames of which two fail, the job still
completes and the depth stage ends `completed` at 100. -/
theorem C9_witness :
    (processVideoEvents inpMixedFrames).2 = none ∧
    (runJob "job-1" "clip.mp4" inpMixedFrames).status = "completed" ∧
    (runJob "job-1" "clip.mp4" inpMixedFrames).stages.head? =
      some ⟨"depth", 100, "completed"⟩ ∧
    inpMixedFrames.frameOk.contains false = true :=
  ⟨((C9_per_item_tolerance "job-1" "clip.mp4" inpMixedFrames rfl).1 (by decide)).1,
   ((C9_per_item_tolerance "job-1" "clip.mp4" inpMixedFrames rfl).1 (by decide)).2.1,
   ((C9_per_item_tolerance "job-1" "clip.mp4" inpMixedFrames rfl).1 (by decide)).2.2,
   by decide⟩

theorem depthFrame_total_ne_zero (t : ℕ) (ok : List Bool) (e : Event)
    (he : e ∈ depthFrameEvents t ok) : t ≠ 0 := by
  rintro rfl
  simp [depthFrameEvents] at he

/-- Case analysis of where an event of the full trace comes from. -/
theorem trace_mem_cases (inp : PipelineInput) (e : Event)
    (he : e ∈ (processVideoEvents inp).1) :
    e ∈ (extractFramesEvents inp).1 ∨
    e = ⟨"depth", 50, "processing"⟩ ∨
    e ∈ depthFrameEvents (min inp.numFrames 5) inp.frameOk ∨
    e = ⟨"depth", 100, "completed"⟩ ∨
    e ∈ laterStageEvents := by
  cases hx : inp.extractOutcome with
  | some m =>
      rw [processVideoEvents_extract_fail inp m hx] at he
      exact Or.inl he
  | none =>
      by_cases h0 : min inp.numFrames 5 = 0
      · rw [processVideoEvents_no_frames inp hx h0] at he
        rw [List.mem_append] at he
        rcases he with he | he
        · exact Or.inl he
        · rw [List.mem_singleton] at he
          exact Or.inr (Or.inl he)
      · rw [processVideoEvents_success inp hx h0] at he
        simp only [List.mem_append, List.mem_cons, List.mem_singleton] at he
        tauto

/-- C3, counterexample: progress values are not clamped — when the extraction
executor reports percent −200, the recorded depth-stage progress is −50,
outside [0,100]. -/
theorem C3_counterexample :
    (jobAfter "job-1" "clip.mp4" inpNegPercent 2).stages.head? =
      some ⟨"depth", -50, "processing"⟩ ∧
    ¬ ((0 : ℚ) ≤ -50) := by
  constructor
  · have h1 : (processVideoEvents inpNegPercent).1.take 2 =
        [⟨"depth", 10, "processing"⟩,
         ⟨"depth", 10 + min (-200 : ℚ) 90 * (3 / 10), "processing"⟩] := by
      rw [processVideoEvents_success inpNegPercent rfl (by decide)]
      rfl
    show (runEvents initStages ((processVideoEvents inpNegPercent).1.take 2)).head? = _
    rw [h1]
    simp only [runEvents, List.foldl, applyEventStages, updateProgress, initStages]
    norm_num [min_eq_left (by norm_num : (-200 : ℚ) ≤ 90)]
  · norm_num

/-- C3, amended: recorded progress values never exceed 100 (the extraction
callback caps the reported percent at 90 and every other write is at most
100), but no clamping is applied below: recorded values are at least 0 only
when the extraction executor reports no negative percent.  Once a stage is
written `completed`, no later write of the run addresses that stage. -/
theorem C3_amended (inp : PipelineInput) :
    (∀ e ∈ (processVideoEvents inp).1, e.progress ≤ 100) ∧
    ((∀ p ∈ inp.extractPercents, (0 : ℚ) ≤ p) →
      ∀ e ∈ (processVideoEvents inp).1, 0 ≤ e.progress) ∧
    completedIsLastB (processVideoEvents inp).1 = true := by
  refine ⟨?_, ?_, ?_⟩
  · intro e he
    rcases trace_mem_cases inp e he with h | h | h | h | h
    · exact extractEvents_le inp e h
    · rw [h]
      norm_num
    · exact (depthFrameEvents_bounds _ _ (depthFrame_total_ne_zero _ _ e h) e h).2
    · rw [h]
    · exact (laterStage_facts e h).2.2
  · intro hp e he
    rcases trace_mem_cases inp e he with h | h | h | h | h
    · exact extractEvents_nonneg inp hp e h
    · rw [h]
      norm_num
    · have hb := (depthFrameEvents_bounds _ _ (depthFrame_total_ne_zero _ _ e h) e h).1
      linarith
    · rw [h]
      norm_num
    · exact (laterStage_facts e h).2.1
  · cases hx : inp.extractOutcome with
    | some m =>
        rw [processVideoEvents_extract_fail inp m hx]
        exact completedIsLastB_of_processing _
          (fun e he => (extractEvents_name_status inp e he).2)
    | none =>
        by_cases h0 : min inp.numFrames 5 = 0
        · rw [processVideoEvents_no_frames inp hx h0]
          refine completedIsLastB_of_processing _ ?_
          intro e he
          rw [List.mem_append] at he
          rcases he with he | he
          · exact (extractEvents_name_status inp e he).2
          · rw [List.mem_singleton] at he
            rw [he]
        · rw [processVideoEvents_success inp hx h0]
          have hre : ((extractFramesEvents inp).1 ++
                (⟨"depth", 50, "processing"⟩ ::
                  (depthFrameEvents (min inp.numFrames 5) inp.frameOk ++
                   [⟨"depth", 100, "completed"⟩]))) ++ laterStageEvents =
              ((extractFramesEvents inp).1 ++
                (⟨"depth", 50, "processing"⟩ ::
                  depthFrameEvents (min inp.numFrames 5) inp.frameOk)) ++
              ((⟨"depth", 100, "completed"⟩ : Event) :: laterStageEvents) := by
            simp [List.cons_append, List.append_assoc]
          rw [hre, completedIsLastB_append _ _ (depthPhase_front_processing inp)]
          exact completedIsLast_done_later

/-- Witness for C3: with reported percents 150 and 20 (one above 100), every
recorded value stays in [0,100] and no completed stage is written again. -/
theorem C3_witness :
    (∀ p ∈ inpClampHigh.extractPercents, (0 : ℚ) ≤ p) ∧
    (∀ e ∈ (processVideoEvents inpClampHigh).1, 0 ≤ e.progress ∧ e.progress ≤ 100) ∧
    completedIsLastB (processVideoEvents inpClampHigh).1 = true := by
  have hp : ∀ p ∈ inpClampHigh.extractPercents, (0 : ℚ) ≤ p := by
    intro p hp
    simp only [inpClampHigh, List.mem_cons, List.not_mem_nil, or_false] at hp
    rcases hp with h | h <;> rw [h] <;> norm_num
  have h := C3_amended inpClampHigh
  exact ⟨hp, fun e he => ⟨h.2.1 hp e he, h.1 e he⟩, h.2.2⟩

theorem orderOK_depth_writes (es : List Event)
    (h : ∀ e ∈ es, e.stageName = "depth") :
    orderOKB (runEvents initStages es) = true := by
  have h0 : initStages = (⟨"depth", 0, "pending"⟩ : Stage) :: initStages.tail := rfl
  rw [h0, runEvents_all_name es _ _ h]
  exact orderOKB_cons_tail _

/-- C4: after any prefix of any run's registry writes, the stage records
respect pipeline order — a stage has left `pending` only if its predecessor
has reached `completed`; in particular no later stage is ever `processing`
while an earlier one is still `pending`, and each stage starts only after the
previous one ended. -/
theorem C4_stage_order (id filename : String) (inp : PipelineInput) (n : ℕ) :
    orderOKB (jobAfter id filename inp n).stages = true := by
  show orderOKB (runEvents initStages ((processVideoEvents inp).1.take n)) = true
  cases hx : inp.extractOutcome with
  | some m =>
      rw [processVideoEvents_extract_fail inp m hx]
      exact orderOK_depth_writes _
        (fun e he => (extractEvents_name_status inp e (List.take_subset n _ he)).1)
  | none =>
      by_cases h0 : min inp.numFrames 5 = 0
      · rw [processVideoEvents_no_frames inp hx h0]
        refine orderOK_depth_writes _ ?_
        intro e he
        have he2 := List.take_subset n _ he
        rw [List.mem_append] at he2
        rcases he2 with h2 | h2
        · exact (extractEvents_name_status inp e h2).1
        · rw [List.mem_singleton] at h2
          rw [h2]
      · rw [processVideoEvents_success_phase inp hx h0,
          List.take_append_eq_append_take]
        by_cases hn : n ≤ (depthPhase inp).length
        · have hz : n - (depthPhase inp).length = 0 := Nat.sub_eq_zero_of_le hn
          rw [hz, List.take_zero, List.append_nil]
          exact orderOK_depth_writes _
            (fun e he => depthPhase_names inp e (List.take_subset n _ he))
        · have hlen : (depthPhase inp).length ≤ n := le_of_not_le hn
          rw [List.take_of_length_le hlen, runEvents_append, runEvents_depthPhase inp]
          rw [runEvents_ne_name _ _ _
            (fun e he hd => (laterStage_not_depth e
              (List.take_subset (n - (depthPhase inp).length) _ he)) hd)]
          have hall := List.all_eq_true.mp orderOKB_later_check
          by_cases hm : n - (depthPhase inp).length ≤ laterStageEvents.length
          · exact hall _ (List.mem_range.mpr (Nat.lt_succ_of_le hm))
          · rw [List.take_of_length_le (le_of_not_le hm)]
            have hL := hall laterStageEvents.length
              (List.mem_range.mpr (Nat.lt_succ_self _))
            rw [List.take_length] at hL
            exact hL

theorem trace_head (inp : PipelineInput) :
    (processVideoEvents inp).1.head? = some ⟨"depth", 10, "processing"⟩ := by
  cases hx : inp.extractOutcome with
  | some m =>
      rw [processVideoEvents_extract_fail inp m hx]
      simp only [extractFramesEvents, hx]
      rfl
  | none =>
      by_cases h0 : min inp.numFrames 5 = 0
      · rw [processVideoEvents_no_frames inp hx h0]
        simp only [extractFramesEvents, hx]
        rfl
      · rw [processVideoEvents_success inp hx h0]
        simp only [extractFramesEvents, hx]
        rfl

theorem laterStage_name_mem :
    ∀ e ∈ laterStageEvents,
      e.stageName = "stereo" ∨ e.stageName = "outpainting" ∨
      e.stageName = "blur" ∨ e.stageName = "upscaling" := by decide

/-- C8, counterexample: the very first registry write of every run marks the
depth stage `processing` at progress 10, not 0 — extraction's opening call is
`updateProgress('depth', 10, 'processing')`. -/
theorem C8_counterexample :
    firstEventFor (processVideoEvents inpNoFrames).1 "depth" =
      some ⟨"depth", 10, "processing"⟩ ∧
    ¬ ((⟨"depth", 10, "processing"⟩ : Event).progress = 0) := by
  constructor
  · rfl
  · norm_num

/-- C8, amended: each of the stereo, outpainting, blur and upscaling
executors begins by marking its stage `processing` with progress 0 (its first
registry write); the depth stage is instead first marked `processing` at
progress 10 by frame extraction (and re-marked at 50 by depth-map
generation). -/
theorem C8_amended (inp : PipelineInput) (s : String) (e : Event)
    (hs : s ≠ "depth") :
    (processVideoEvents inp).1.head? = some ⟨"depth", 10, "processing"⟩ ∧
    (firstEventFor (processVideoEvents inp).1 s = some e →
      e = ⟨s, 0, "processing"⟩) := by
  refine ⟨trace_head inp, ?_⟩
  intro h
  have hfilter_depth : ∀ (es : List Event), (∀ e2 ∈ es, e2.stageName = "depth") →
      es.filter (fun e2 => e2.stageName = s) = [] := by
    intro es hd
    rw [List.filter_eq_nil_iff]
    intro a ha
    simp only [decide_eq_true_eq]
    intro hname
    exact hs ((hname.symm.trans (hd a ha)))
  cases hx : inp.extractOutcome with
  | some m =>
      rw [processVideoEvents_extract_fail inp m hx] at h
      unfold firstEventFor at h
      rw [hfilter_depth _ (fun e2 he2 => (extractEvents_name_status inp e2 he2).1)] at h
      exact absurd h (by simp)
  | none =>
      by_cases h0 : min inp.numFrames 5 = 0
      · rw [processVideoEvents_no_frames inp hx h0] at h
        unfold firstEventFor at h
        rw [hfilter_depth _ ?all] at h
        case all =>
          intro e2 he2
          rw [List.mem_append] at he2
          rcases he2 with h2 | h2
          · exact (extractEvents_name_status inp e2 h2).1
          · rw [List.mem_singleton] at h2
            rw [h2]
        exact absurd h (by simp)
      · rw [processVideoEvents_success_phase inp hx h0] at h
        unfold firstEventFor at h
        rw [List.filter_append, hfilter_depth _ (depthPhase_names inp),
          List.nil_append] at h
        by_cases h1 : s = "stereo"
        · subst h1
          have hc : (laterStageEvents.filter
              (fun e2 => e2.stageName = "stereo")).head? =
              some ⟨"stereo", 0, "processing"⟩ := rfl
          rw [hc, Option.some_inj] at h
          rw [← h]
        · by_cases h2 : s = "outpainting"
          · subst h2
            have hc : (laterStageEvents.filter
                (fun e2 => e2.stageName = "outpainting")).head? =
                some ⟨"outpainting", 0, "processing"⟩ := rfl
            rw [hc, Option.some_inj] at h
            rw [← h]
          · by_cases h3 : s = "blur"
            · subst h3
              have hc : (laterStageEvents.filter
                  (fun e2 => e2.stageName = "blur")).head? =
                  some ⟨"blur", 0, "processing"⟩ := rfl
              rw [hc, Option.some_inj] at h
              rw [← h]
            · by_cases h4 : s = "upscaling"
              · subst h4
                have hc : (laterStageEvents.filter
                    (fun e2 => e2.stageName = "upscaling")).head? =
                    some ⟨"upscaling", 0, "processing"⟩ := rfl
                rw [hc, Option.some_inj] at h
                rw [← h]
              · have hnil : laterStageEvents.filter
                    (fun e2 => e2.stageName = s) = [] := by
                  rw [List.filter_eq_nil_iff]
                  intro a ha
                  simp only [decide_eq_true_eq]
                  intro hname
                  rcases laterStage_name_mem a ha with hn | hn | hn | hn <;>
                    rw [hname] at hn
                  · exact h1 hn
                  · exact h2 hn
                  · exact h3 hn
                  · exact h4 hn
                rw [hnil] at h
                exact absurd h (by simp)

/-- Witness for C8: on the happy-path input the stereo stage's first write is
`processing`/0, and the run's first write overall is the depth stage at 10. -/
theorem C8_witness :
    firstEventFor (processVideoEvents inpHappy).1 "stereo" =
      some ⟨"stereo", 0, "processing"⟩ ∧
    (⟨"stereo", 0, "processing"⟩ : Event) = ⟨"stereo", 0, "processing"⟩ ∧
    (processVideoEvents inpHappy).1.head? = some ⟨"depth", 10, "processing"⟩ :=
  ⟨rfl,
   (C8_amended inpHappy "stereo" ⟨"stereo", 0, "processing"⟩ (by decide)).2 rfl,
   (C8_amended inpHappy "stereo" ⟨"stereo", 0, "processing"⟩ (by decide)).1⟩

theorem stripExtScan_spec (l r : List Char)
    (hl : ∀ c ∈ l, c ≠ '.' ∧ c ≠ '/') :
    stripExtScan (l ++ '.' :: r) = some r := by
  induction l with
  | nil => rfl
  | cons c cs ih =>
      have hc := hl c (List.mem_cons_self _ _)
      show stripExtScan (c :: (cs ++ '.' :: r)) = some r
      simp only [stripExtScan]
      rw [if_neg hc.1, if_neg hc.2]
      exact ih (fun c2 h2 => hl c2 (List.mem_cons_of_mem _ h2))

theorem stripExtAux_spec (l r : List Char) (hne : l ≠ [])
    (hl : ∀ c ∈ l, c ≠ '.' ∧ c ≠ '/') :
    stripExtAux (l ++ '.' :: r) = some r := by
  cases l with
  | nil => exact absurd rfl hne
  | cons c cs =>
      have hc := hl c (List.mem_cons_self _ _)
      show stripExtAux (c :: (cs ++ '.' :: r)) = some r
      simp only [stripExtAux]
      rw [if_neg (not_or.mpr ⟨hc.1, hc.2⟩)]
      exact stripExtScan_spec cs r (fun c2 h2 => hl c2 (List.mem_cons_of_mem _ h2))

theorem string_data_ne_nil (s : String) (h : s ≠ "") : s.data ≠ [] := by
  intro hd
  apply h
  cases s with
  | mk l =>
      simp only at hd
      rw [hd]

/-- Applying the source's regex replacement to a filename of the form
`base.ext`, where `ext` is non-empty and contains no dot and no slash,
removes exactly the final dot-extension. -/
theorem stripDotExt_append_ext (base ext : String) (hne : ext ≠ "")
    (hext : ∀ c ∈ ext.data, c ≠ '.' ∧ c ≠ '/') :
    stripDotExt (base ++ "." ++ ext) = base := by
  unfold stripDotExt
  have hdata : (base ++ "." ++ ext).data = base.data ++ '.' :: ext.data := by
    rw [String.data_append, String.data_append, List.append_assoc]
    rfl
  have hrev : (base.data ++ '.' :: ext.data).reverse =
      ext.data.reverse ++ '.' :: base.data.reverse := by
    simp [List.reverse_append, List.reverse_cons, List.append_assoc]
  rw [hdata, hrev]
  rw [stripExtAux_spec ext.data.reverse base.data.reverse
    (fun hnil => string_data_ne_nil ext hne (by
      have := congrArg List.reverse hnil
      rwa [List.reverse_reverse] at this))
    (fun c hc => hext c (List.mem_reverse.mp hc))]
  show String.mk base.data.reverse.reverse = base
  rw [List.reverse_reverse]

/-- C10: for a completed job whose output file exists, the download route
serves `outputs/<jobId>/final_vr180.mp4` under the job's original filename
with its final dot-extension removed and `_VR180.mp4` appended. -/
theorem C10_download_name (jobId base ext : String) (job : Job)
    (hstatus : job.status = "completed")
    (hname : job.filename = base ++ "." ++ ext)
    (hne : ext ≠ "")
    (hext : ∀ c ∈ ext.data, c ≠ '.' ∧ c ≠ '/') :
    downloadHandler (some job) true jobId =
      .file ("outputs/" ++ jobId ++ "/final_vr180.mp4")
        (base ++ "_VR180.mp4") := by
  simp [downloadHandler, hstatus, hname,
    stripDotExt_append_ext base ext hne hext]

/-- Witness for C10: a completed job uploaded as `holiday.mp4` downloads as
`holiday_VR180.mp4` from `outputs/job-1/final_vr180.mp4`. -/
theorem C10_witness :
    downloadHandler
      (some { createJob "job-1" "holiday.mp4" 0 with status := "completed" })
      true "job-1" =
      .file ("outputs/" ++ "job-1" ++ "/final_vr180.mp4")
        ("holiday" ++ "_VR180.mp4") :=
  C10_download_name "job-1" "holiday" "mp4"
    { createJob "job-1" "holiday.mp4" 0 with status := "completed" }
    rfl (by decide) (by decide) (by decide)

end VR180
